import Mathlib

/-!
Verification of the beam node orchestrator (src/node/node.h) against its
natural-language specification (spec.md).

The repository fragment under src/ contains the node header only; the method
bodies live in node.cpp, which is not part of the fragment.  Where a claim is
decided by such a missing body, the corresponding Lean definition is modelled
from the specification (and from the documenting comments that are present in
the header) and is marked as such in its doc comment.  Configuration
structures, their default values, and the inline function
Node::Config::Bbs::IsEnabled are taken directly from src/node/node.h.
-/

/-! ## Configuration structures (from src/node/node.h, Node::Config) -/

/-- Node::Config::RollbackLimit (node.h lines 87-93).  The header comments say:
m_Max is an artificial restriction on how much the node will rollback
automatically; further rollback is possible after m_TimeoutSinceTip_s since the
current tip; in either case it is no more than Rules::MaxRollback. -/
structure RollbackLimit where
  m_Max : Nat
  m_TimeoutSinceTip_s : Nat
deriving DecidableEq

/-- Default values of Node::Config::RollbackLimit from node.h. -/
def defaultRollbackLimit : RollbackLimit :=
  { m_Max := 60, m_TimeoutSinceTip_s := 3600 }

/-- NodeDB::BbsTotals: a count of messages and their total byte size. -/
structure BbsTotals where
  m_Count : Nat
  m_Size : Nat
deriving DecidableEq

/-- Node::Config::Bbs (node.h lines 95-114). -/
structure BbsCfg where
  m_MessageTimeout_s : Nat
  m_CleanupPeriod_ms : Nat
  m_Limit : BbsTotals
deriving DecidableEq

/-- Default values of Node::Config::Bbs from the constructor in node.h:
12-hour message lifetime, 1-hour cleanup period, 20 million messages, 5 Gb. -/
def defaultBbsCfg : BbsCfg :=
  { m_MessageTimeout_s := 3600 * 12
    m_CleanupPeriod_ms := 3600 * 1000
    m_Limit := { m_Count := 20000000, m_Size := 5 * 1024 * 1024 * 1024 } }

/-- Node::Config::Bbs::IsEnabled, defined inline in node.h line 112:
return m_Limit.m_Count > 0. -/
def BbsCfg.IsEnabled (c : BbsCfg) : Bool :=
  c.m_Limit.m_Count > 0

/-- Node::Config::BandwidthCtl (node.h lines 116-124). -/
structure BandwidthCtl where
  m_Chocking : Nat
  m_Drown : Nat
  m_MaxBodyPackSize : Nat
  m_MaxBodyPackCount : Nat
deriving DecidableEq

/-- Default values of Node::Config::BandwidthCtl from node.h. -/
def defaultBandwidthCtl : BandwidthCtl :=
  { m_Chocking := 1024 * 1024
    m_Drown := 1024 * 1024 * 20
    m_MaxBodyPackSize := 1024 * 1024 * 5
    m_MaxBodyPackCount := 3000 }

/-- Node::Config::Dandelion (node.h lines 134-149). -/
structure DandelionCfg where
  m_FluffProbability : Nat
  m_TimeoutMin_ms : Nat
  m_TimeoutMax_ms : Nat
  m_dhStemConfirm : Nat
  m_AggregationTime_ms : Nat
  m_OutputsMin : Nat
  m_OutputsMax : Nat
  m_DummyLifetimeLo : Nat
  m_DummyLifetimeHi : Nat
deriving DecidableEq

/-- Default values of Node::Config::Dandelion from node.h; the fluff
probability 0x1999 is normalized with respect to 16 bit and equals 0.1. -/
def defaultDandelionCfg : DandelionCfg :=
  { m_FluffProbability := 0x1999
    m_TimeoutMin_ms := 20000
    m_TimeoutMax_ms := 50000
    m_dhStemConfirm := 5
    m_AggregationTime_ms := 10000
    m_OutputsMin := 5
    m_OutputsMax := 40
    m_DummyLifetimeLo := 720
    m_DummyLifetimeHi := 1440 * 7 }

/-! ## C1: automatic rollback policy -/

/-- Modelled from the spec: Node::Processor::get_MaxAutoRollback is declared in
node.h line 240 but its body is in node.cpp, which is not under src/.  The
model follows the header comments on Config::RollbackLimit: rollback up to
m_Max blocks is always permitted automatically; further rollback is possible
once m_TimeoutSinceTip_s has elapsed since the current tip was adopted; in
either case the bound never exceeds Rules::MaxRollback (passed here as the
parameter rulesMaxRollback, its definition being outside the fragment). -/
def get_MaxAutoRollback (cfg : RollbackLimit) (rulesMaxRollback : Nat)
    (elapsedSinceTip_s : Nat) : Nat :=
  if elapsedSinceTip_s < cfg.m_TimeoutSinceTip_s then
    min cfg.m_Max rulesMaxRollback
  else
    rulesMaxRollback

/-- Whether an automatic rollback of the given depth below the current tip is
permitted, which is the comparison against get_MaxAutoRollback. -/
def autoRollbackAllowed (cfg : RollbackLimit) (rulesMaxRollback : Nat)
    (elapsedSinceTip_s : Nat) (depth : Nat) : Bool :=
  depth ≤ get_MaxAutoRollback cfg rulesMaxRollback elapsedSinceTip_s

/-! ## C3: dandelion admission decision -/

/-- Outcome of the stem admission coin flip: the transaction either fluffs
immediately or enters the stem pool. -/
inductive StemDecision where
  | fluff : StemDecision
  | stem : StemDecision
deriving DecidableEq

/-- Modelled from the spec: the admission branch of Node::OnTransactionStem
(declared in node.h line 392, body in node.cpp, not under src/).  For a
transaction that arrived as stem or was submitted locally, a uniform 16-bit
value is drawn via Node::RandomUInt32 and the transaction transitions to fluff
immediately iff the value is below m_FluffProbability; otherwise it is
inserted into the stem pool. -/
def stemAdmission (cfg : DandelionCfg) (draw : Nat) : StemDecision :=
  if draw < cfg.m_FluffProbability then StemDecision.fluff else StemDecision.stem

/-! ## C10: BBS enable switch -/

/-- One bulletin-board message: channel, id, payload size and expiry time,
following the data model of the spec. -/
structure BbsMsg where
  m_Channel : Nat
  m_Id : Nat
  m_PayloadSize : Nat
  m_Expiry_s : Nat
deriving DecidableEq

/-- Totals of a stored message list: count and cumulative byte size, as
tracked by NodeDB::BbsTotals. -/
def bbsTotalsOf (store : List BbsMsg) : BbsTotals :=
  { m_Count := store.length
    m_Size := (store.map BbsMsg.m_PayloadSize).sum }

/-- Modelled from the spec: oldest-first eviction until the new message fits
within the configured limits.  The store list is ordered oldest first. -/
def bbsMakeRoom (limit : BbsTotals) (m : BbsMsg) : List BbsMsg → List BbsMsg
  | [] => []
  | h :: t =>
    if (h :: t).length + 1 ≤ limit.m_Count ∧
        ((h :: t).map BbsMsg.m_PayloadSize).sum + m.m_PayloadSize ≤ limit.m_Size then
      h :: t
    else
      bbsMakeRoom limit m t

/-- Modelled from the spec: publication of a BBS message (the message handling
of Node::Peer for proto::BbsMsg lives in node.cpp, not under src/).  The
header comment on Node::Config::Bbs says that setting the limit to 0 disables
BBS replication; publish rejects an expired message, evicts oldest-first until
the new message fits, and stores it.  When replication is disabled nothing is
stored. -/
def bbsPublish (cfg : BbsCfg) (store : List BbsMsg) (now_s : Nat) (m : BbsMsg) :
    List BbsMsg :=
  if cfg.IsEnabled = false then store
  else if m.m_Expiry_s ≤ now_s then store
  else bbsMakeRoom cfg.m_Limit m store ++ [m]

/-! ## Theorems for C1, C3, C10 -/

/-- C1 counterexample: the claim states that automatic rollback is permitted
only when BOTH the depth bound and the timeout condition hold.  With the
default limits, a rollback of depth 10 only 10 seconds after tip adoption is
permitted automatically (this is exactly scenario 2 of the spec, rollback
under limit with the tip established 10 s ago), although the 3600 s timeout
has not elapsed, so the claimed conjunction is false. -/
theorem autoRollback_claim_counterexample :
    autoRollbackAllowed defaultRollbackLimit 1440 10 10 = true ∧ ¬ (3600 ≤ 10) := by
  decide

/-- C1 (amended): before the timeout since tip adoption has elapsed, automatic
rollback is permitted exactly up to m_Max blocks (a rollback of exactly m_Max
succeeds and one of m_Max + 1 is refused); once the timeout has elapsed the
bound relaxes to Rules::MaxRollback, so the deeper rollback proceeds without
operator action. -/
theorem autoRollback_policy (cfg : RollbackLimit) (rulesMax e1 e2 d : Nat)
    (hMax : cfg.m_Max < rulesMax)
    (h1 : e1 < cfg.m_TimeoutSinceTip_s)
    (h2 : cfg.m_TimeoutSinceTip_s ≤ e2) :
    (autoRollbackAllowed cfg rulesMax e1 d = true ↔ d ≤ cfg.m_Max) ∧
    autoRollbackAllowed cfg rulesMax e1 cfg.m_Max = true ∧
    autoRollbackAllowed cfg rulesMax e1 (cfg.m_Max + 1) = false ∧
    autoRollbackAllowed cfg rulesMax e2 (cfg.m_Max + 1) = true ∧
    (autoRollbackAllowed cfg rulesMax e2 d = true ↔ d ≤ rulesMax) := by
  have hne : ¬ e2 < cfg.m_TimeoutSinceTip_s := not_lt.mpr h2
  have hmin : min cfg.m_Max rulesMax = cfg.m_Max := Nat.min_eq_left (Nat.le_of_lt hMax)
  refine ⟨?_, ?_, ?_, ?_, ?_⟩ <;>
    simp only [autoRollbackAllowed, get_MaxAutoRollback, if_pos h1, if_neg hne, hmin,
      decide_eq_true_eq, decide_eq_false_iff_not, not_le] <;>
    omega

/-- C1 witness: the amended policy evaluated at the default configuration,
Rules::MaxRollback 1440, 10 s and 3600 s since tip, and depth 10. -/
theorem autoRollback_policy_witness :
    (autoRollbackAllowed defaultRollbackLimit 1440 10 10 = true ↔ 10 ≤ 60) ∧
    autoRollbackAllowed defaultRollbackLimit 1440 10 60 = true ∧
    autoRollbackAllowed defaultRollbackLimit 1440 10 61 = false ∧
    autoRollbackAllowed defaultRollbackLimit 1440 3600 61 = true ∧
    (autoRollbackAllowed defaultRollbackLimit 1440 3600 10 = true ↔ 10 ≤ 1440) := by
  exact autoRollback_policy defaultRollbackLimit 1440 10 3600 10
    (by decide) (by decide) (by decide)

/-- C3 counterexample: the claim states that with m_FluffProbability = 0xFFFF
every admitted transaction goes to the fluff pool, while also stating that the
transaction fluffs iff a uniform 16-bit draw is below m_FluffProbability.  The
draw 0xFFFF is a legitimate 16-bit value and is not below 0xFFFF, so that
admission goes to the stem pool. -/
theorem stemAdmission_claim_counterexample :
    (0xFFFF < 2 ^ 16) ∧
    stemAdmission { defaultDandelionCfg with m_FluffProbability := 0xFFFF } 0xFFFF
      = StemDecision.stem := by
  constructor
  · decide
  · rfl

/-- C3 (amended): the transaction fluffs immediately iff the 16-bit draw is
below m_FluffProbability; with probability 0x0000 every admission goes to the
stem pool, and with probability 0xFFFF an admission goes to the fluff pool iff
the draw differs from 0xFFFF (all 16-bit values except 0xFFFF itself). -/
theorem stemAdmission_spec (cfg : DandelionCfg) (draw : Nat) (h : draw < 2 ^ 16) :
    (stemAdmission cfg draw = StemDecision.fluff ↔ draw < cfg.m_FluffProbability) ∧
    stemAdmission { cfg with m_FluffProbability := 0 } draw = StemDecision.stem ∧
    (stemAdmission { cfg with m_FluffProbability := 0xFFFF } draw = StemDecision.fluff
      ↔ draw ≠ 0xFFFF) := by
  refine ⟨?_, ?_, ?_⟩
  · by_cases hd : draw < cfg.m_FluffProbability
    · simp [stemAdmission, hd]
    · simp [stemAdmission, hd]
  · simp [stemAdmission]
  · by_cases hd : draw < 0xFFFF
    · simp only [stemAdmission]
      rw [if_pos hd]
      simp only [true_iff]
      omega
    · simp only [stemAdmission]
      rw [if_neg hd]
      constructor
      · intro hc
        exact absurd hc (by simp)
      · intro hc
        omega

/-- C3 witness: the amended statement evaluated at the default dandelion
configuration and the concrete draw 5. -/
theorem stemAdmission_spec_witness :
    (stemAdmission defaultDandelionCfg 5 = StemDecision.fluff ↔ 5 < 0x1999) ∧
    stemAdmission { defaultDandelionCfg with m_FluffProbability := 0 } 5
      = StemDecision.stem ∧
    (stemAdmission { defaultDandelionCfg with m_FluffProbability := 0xFFFF } 5
      = StemDecision.fluff ↔ 5 ≠ 0xFFFF) := by
  exact stemAdmission_spec defaultDandelionCfg 5 (by decide)

/-- C10: BBS replication is enabled iff the configured message-count limit is
strictly positive; a node configured with a zero count limit reports
IsEnabled = false and publishing stores no message. -/
theorem bbs_disabled_when_count_zero (cfg cfg0 : BbsCfg) (store : List BbsMsg)
    (now_s : Nat) (m : BbsMsg) (h : cfg0.m_Limit.m_Count = 0) :
    (cfg.IsEnabled = true ↔ 0 < cfg.m_Limit.m_Count) ∧
    cfg0.IsEnabled = false ∧
    bbsPublish cfg0 store now_s m = store := by
  refine ⟨?_, ?_, ?_⟩
  · simp [BbsCfg.IsEnabled]
  · simp [BbsCfg.IsEnabled, h]
  · simp [bbsPublish, BbsCfg.IsEnabled, h]

/-- C10 witness: the default configuration with the count limit set to 0,
evaluated at a concrete store and message. -/
theorem bbs_disabled_when_count_zero_witness :
    (defaultBbsCfg.IsEnabled = true ↔ 0 < defaultBbsCfg.m_Limit.m_Count) ∧
    BbsCfg.IsEnabled { defaultBbsCfg with m_Limit := { m_Count := 0, m_Size := 0 } }
      = false ∧
    bbsPublish { defaultBbsCfg with m_Limit := { m_Count := 0, m_Size := 0 } }
      [{ m_Channel := 1, m_Id := 2, m_PayloadSize := 3, m_Expiry_s := 100 }] 0
      { m_Channel := 1, m_Id := 5, m_PayloadSize := 3, m_Expiry_s := 100 }
      = [{ m_Channel := 1, m_Id := 2, m_PayloadSize := 3, m_Expiry_s := 100 }] := by
  exact bbs_disabled_when_count_zero defaultBbsCfg
    { defaultBbsCfg with m_Limit := { m_Count := 0, m_Size := 0 } }
    [{ m_Channel := 1, m_Id := 2, m_PayloadSize := 3, m_Expiry_s := 100 }] 0
    { m_Channel := 1, m_Id := 5, m_PayloadSize := 3, m_Expiry_s := 100 }
    rfl

/-! ## C4: stem to fluff transitions are one-way -/

/-- Phase of a transaction entry in the dandelion relay: stem (forward to a
single peer) or fluff (broadcast to all). -/
inductive TxPhase where
  | stem : TxPhase
  | fluff : TxPhase
deriving DecidableEq

/-- Events in the lifecycle of a stem entry, from the spec list of stem to
fluff transitions: timer expiry, aggregation condition met, stem transaction
not mined within dhStemConfirm blocks, chosen downstream peer disconnected;
forwarding to the chosen peer keeps the entry in stem. -/
inductive StemEvent where
  | forwarded : StemEvent
  | timerExpiry : StemEvent
  | aggregationDone : StemEvent
  | confirmTimeout : StemEvent
  | peerDisconnected : StemEvent
deriving DecidableEq

/-- Modelled from the spec: the phase transition of a dandelion entry
(Node::Dandelion::OnTimedOut and Node::OnTransactionFluff are declared in
node.h lines 363-393, bodies in node.cpp, not under src/).  From stem, every
event except a plain forward moves the entry to fluff; from fluff no event
changes the phase, since there is no reverse transition. -/
def phaseStep : TxPhase → StemEvent → TxPhase
  | TxPhase.stem, StemEvent.forwarded => TxPhase.stem
  | TxPhase.stem, _ => TxPhase.fluff
  | TxPhase.fluff, _ => TxPhase.fluff

/-- Number of stem-to-fluff transitions along an event trace. -/
def fluffTransitions : TxPhase → List StemEvent → Nat
  | _, [] => 0
  | p, e :: t =>
    (if p = TxPhase.stem ∧ phaseStep p e = TxPhase.fluff then 1 else 0) +
      fluffTransitions (phaseStep p e) t

/-- Number of fluff-to-stem (reverse) transitions along an event trace. -/
def backTransitions : TxPhase → List StemEvent → Nat
  | _, [] => 0
  | p, e :: t =>
    (if p = TxPhase.fluff ∧ phaseStep p e = TxPhase.stem then 1 else 0) +
      backTransitions (phaseStep p e) t

/-- Once in fluff, an entry never transitions again. -/
theorem fluffTransitions_of_fluff (evts : List StemEvent) :
    fluffTransitions TxPhase.fluff evts = 0 := by
  induction evts with
  | nil => rfl
  | cons e t ih =>
    cases e <;> simp [fluffTransitions, phaseStep, ih]

/-- C4: along every execution of a transaction entry starting in stem, the
stem-to-fluff transition happens at most once, and the reverse fluff-to-stem
transition never occurs from any phase. -/
theorem dandelion_phase_one_way (evts : List StemEvent) (p : TxPhase) :
    fluffTransitions TxPhase.stem evts ≤ 1 ∧ backTransitions p evts = 0 := by
  constructor
  · induction evts with
    | nil => simp [fluffTransitions]
    | cons e t ih =>
      cases e <;>
        simp [fluffTransitions, phaseStep, fluffTransitions_of_fluff, ih]
  · induction evts generalizing p with
    | nil => rfl
    | cons e t ih =>
      cases p <;> cases e <;> simp [backTransitions, phaseStep, ih]

/-! ## C5: admitting a known transaction is a no-op -/

/-- One mempool transaction, reduced to the attributes the fluff pool tracks
per the spec data model: fingerprint key, byte size, fee. -/
structure Tx where
  m_Key : Nat
  m_Size : Nat
  m_Fee : Nat
deriving DecidableEq

/-- TxPool::Fluff, modelled as a keyed entry list (fingerprint to entry). -/
structure FluffPool where
  m_Entries : List (Nat × Tx)
deriving DecidableEq

/-- Discrete transaction status codes from the spec error-handling section. -/
inductive TxStatus where
  | Accepted : TxStatus
  | AlreadyKnown : TxStatus
  | Invalid : TxStatus
  | DoubleSpend : TxStatus
  | TooLowFee : TxStatus
  | HeightOutOfRange : TxStatus
  | ContextMismatch : TxStatus
deriving DecidableEq

/-- Modelled from the spec: Node::OnTransaction (declared node.h line 216, body
in node.cpp, not under src/) admitting a fluff transaction into m_TxPool.  A
transaction whose fingerprint is already present returns AlreadyKnown and the
pool is untouched; otherwise it is validated (validation is performed by the
Processor, outside the fragment, and is passed as a predicate) and inserted on
success. -/
def onTransactionModel (validate : Tx → Bool) (pool : FluffPool) (t : Tx) :
    TxStatus × FluffPool :=
  if (pool.m_Entries.lookup t.m_Key).isSome then
    (TxStatus.AlreadyKnown, pool)
  else if validate t then
    (TxStatus.Accepted, { m_Entries := (t.m_Key, t) :: pool.m_Entries })
  else
    (TxStatus.Invalid, pool)

/-- C5: admitting a transaction whose fingerprint is already present in the
pool returns AlreadyKnown and leaves the pool (its entry list) unchanged; in
particular this holds for the second admission of any transaction. -/
theorem onTransaction_alreadyKnown (validate : Tx → Bool) (pool : FluffPool)
    (t : Tx) (h : (pool.m_Entries.lookup t.m_Key).isSome = true) :
    onTransactionModel validate pool t = (TxStatus.AlreadyKnown, pool) := by
  simp [onTransactionModel, h]

/-- C5 witness: a pool holding the transaction with fingerprint 7; readmitting
it yields AlreadyKnown and the same pool. -/
theorem onTransaction_alreadyKnown_witness :
    onTransactionModel (fun _ => true)
      { m_Entries := [(7, { m_Key := 7, m_Size := 100, m_Fee := 3 })] }
      { m_Key := 7, m_Size := 100, m_Fee := 3 }
      = (TxStatus.AlreadyKnown,
         { m_Entries := [(7, { m_Key := 7, m_Size := 100, m_Fee := 3 })] }) := by
  exact onTransaction_alreadyKnown (fun _ => true)
    { m_Entries := [(7, { m_Key := 7, m_Size := 100, m_Fee := 3 })] }
    { m_Key := 7, m_Size := 100, m_Fee := 3 } rfl

/-! ## C8: the dependent chain is dropped on every new state -/

/-- One element of the dependent-transaction chain: parent context hash, new
context hash, and the transaction fingerprint, per the spec data model. -/
structure DepElement where
  m_ParentCtx : Nat
  m_NewCtx : Nat
  m_TxKey : Nat
deriving DecidableEq

/-- The tip height together with TxPool::Dependent (m_TxDependent). -/
structure DependentState where
  m_Tip : Nat
  m_TxDependent : List DepElement
deriving DecidableEq

/-- Events affecting the dependent chain: the Processor reports a new state
(the tip advances), or a peer appends a dependent transaction. -/
inductive DepEvent where
  | onNewState : Nat → DepEvent
  | addDependent : DepElement → DepEvent
deriving DecidableEq

/-- Modelled from the spec: Node::Processor::OnNewState (declared node.h line
232, body in node.cpp, not under src/) drops the entire dependent chain when
the tip advances; SetDependentContext admission appends an element built over
its parent context. -/
def depStep (s : DependentState) : DepEvent → DependentState
  | DepEvent.onNewState h => { m_Tip := h, m_TxDependent := [] }
  | DepEvent.addDependent e => { s with m_TxDependent := s.m_TxDependent ++ [e] }

/-- Run of the dependent-chain state machine over a list of events. -/
def depRun (s : DependentState) (evts : List DepEvent) : DependentState :=
  evts.foldl depStep s

/-- C8: whatever dependents were accumulated by an arbitrary preceding event
trace, an OnNewState report drops the entire chain: afterwards m_TxDependent
is empty (regardless of whether individual dependents would still validate on
the new tip) and the tip is the reported one. -/
theorem dependent_chain_dropped (s : DependentState) (evts : List DepEvent)
    (h : Nat) :
    (depRun s (evts ++ [DepEvent.onNewState h])).m_TxDependent = [] ∧
    (depRun s (evts ++ [DepEvent.onNewState h])).m_Tip = h := by
  simp [depRun, List.foldl_append, depStep]

/-! ## C7: rejected keys of a peer -/

/-- Node::Task::Key: a pair of a block id (height and hash) and a body flag
(node.h line 285). -/
structure TaskKey where
  m_Height : Nat
  m_Hash : Nat
  m_IsBody : Bool
deriving DecidableEq

/-- Events of one peer connection that touch the rejected-keys set: repeated
timeouts on a key (which add it), the peer announcing a new tip, and any other
message. -/
inductive PeerEvent where
  | repeatedTimeout : TaskKey → PeerEvent
  | newTip : PeerEvent
  | otherMsg : PeerEvent
deriving DecidableEq

/-- Modelled from the spec and the header comment on Node::Peer::m_setRejected
(node.h line 536): data that should not be requested from this peer, reset
after reconnection or on receiving NewTip.  Repeated timeouts on the same key
add that key (the adding code, Node::Peer::OnRequestTimeout, lives in
node.cpp, not under src/); receiving NewTip clears the set. -/
def rejectedStep (s : List TaskKey) : PeerEvent → List TaskKey
  | PeerEvent.repeatedTimeout k => if k ∈ s then s else k :: s
  | PeerEvent.newTip => []
  | PeerEvent.otherMsg => s

/-- Evolution of the rejected-keys set over a trace of events of one open
connection. -/
def rejectedRun (s : List TaskKey) (evts : List PeerEvent) : List TaskKey :=
  evts.foldl rejectedStep s

/-- C7 counterexample: a key entered into the rejected set by repeated
timeouts is gone after the same peer sends a NewTip message, although the
connection never closed, so the key does not stay for the entire lifetime of
the connection as claimed. -/
theorem rejected_keys_claim_counterexample :
    TaskKey.mk 5 7 true ∈
      rejectedRun [] [PeerEvent.repeatedTimeout (TaskKey.mk 5 7 true)] ∧
    TaskKey.mk 5 7 true ∉
      rejectedRun [] [PeerEvent.repeatedTimeout (TaskKey.mk 5 7 true),
        PeerEvent.newTip] := by
  decide

/-- C7 (amended): once a key is in the rejected set, it stays there for as
long as the connection neither closes nor receives a NewTip from the peer; the
set is reset after reconnection or on receiving NewTip. -/
theorem rejected_keys_persist (s : List TaskKey) (k : TaskKey)
    (evts : List PeerEvent) (hk : k ∈ s) (hnt : PeerEvent.newTip ∉ evts) :
    k ∈ rejectedRun s evts := by
  induction evts generalizing s with
  | nil => exact hk
  | cons e t ih =>
    rw [List.mem_cons] at hnt
    push_neg at hnt
    obtain ⟨hne, hnt2⟩ := hnt
    cases e with
    | repeatedTimeout k2 =>
      refine ih _ ?_ hnt2
      by_cases hmem : k2 ∈ s
      · simpa [rejectedStep, hmem] using hk
      · simp [rejectedStep, hmem, hk]
    | newTip => exact absurd rfl hne
    | otherMsg => exact ih _ hk hnt2

/-- C7 witness: the key (1, 2, false) already rejected survives a trace of an
ordinary message and a repeated timeout on a different key. -/
theorem rejected_keys_persist_witness :
    TaskKey.mk 1 2 false ∈
      rejectedRun [TaskKey.mk 1 2 false]
        [PeerEvent.otherMsg, PeerEvent.repeatedTimeout (TaskKey.mk 3 4 true)] := by
  exact rejected_keys_persist [TaskKey.mk 1 2 false] (TaskKey.mk 1 2 false)
    [PeerEvent.otherMsg, PeerEvent.repeatedTimeout (TaskKey.mk 3 4 true)]
    (by decide) (by decide)

/-! ## C9: stale external mining solutions are discarded -/

/-- One external-solver job: its id and the stop flag of the associated mining
task (Node::Miner::Task carries a shared stop flag, node.h line 714). -/
structure ExtJob where
  m_JobID : Nat
  m_Stop : Bool
deriving DecidableEq

/-- Node::Miner::External (node.h lines 740-748): the last issued job id and
the backlog m_ppTask of 64 task slots, indexed by job id modulo 64. -/
structure MinerExternal where
  m_jobID : Nat
  m_ppTask : List (Option ExtJob)
deriving DecidableEq

/-- Read of a backlog slot. -/
def slotGet : List (Option ExtJob) → Nat → Option ExtJob
  | [], _ => none
  | x :: _, 0 => x
  | _ :: t, i + 1 => slotGet t i

/-- Write of a backlog slot. -/
def slotSet : List (Option ExtJob) → Nat → Option ExtJob → List (Option ExtJob)
  | [], _, _ => []
  | _ :: t, 0, v => v :: t
  | x :: t, i + 1, v => x :: slotSet t i v

/-- Miner::External::get_At: the backlog task for a job id, taken from the
slot for that id modulo the backlog size; a slot occupied by a different job
holds no task for this id. -/
def get_At (s : MinerExternal) (jobID : Nat) : Option ExtJob :=
  match slotGet s.m_ppTask (jobID % 64) with
  | none => none
  | some j => if j.m_JobID = jobID then some j else none

/-- Initial state of the external miner: no job issued, empty backlog. -/
def extInit : MinerExternal :=
  { m_jobID := 0, m_ppTask := List.replicate 64 none }

/-- Setting the stop flag of the backlog task of a given job id, if present. -/
def stopJob (l : List (Option ExtJob)) (jobID : Nat) : List (Option ExtJob) :=
  match slotGet l (jobID % 64) with
  | none => l
  | some j =>
    if j.m_JobID = jobID then
      slotSet l (jobID % 64) (some { j with m_Stop := true })
    else l

/-- Modelled from the spec: on every OnNewState or soft-restart interval the
mining template is rebuilt, the stop flag of the old task is set, and the
external solver is re-dispatched under a fresh job id
(Node::Miner::SoftRestart and StartMining are declared in node.h, bodies in
node.cpp, not under src/). -/
def minerStep (s : MinerExternal) : MinerExternal :=
  let stopped := stopJob s.m_ppTask s.m_jobID
  let j := s.m_jobID + 1
  { m_jobID := j
    m_ppTask := slotSet stopped (j % 64) (some { m_JobID := j, m_Stop := false }) }

/-- State of the external miner after a number of template restarts. -/
def minerRun (restarts : Nat) : MinerExternal :=
  Nat.rec extInit (fun _ s => minerStep s) restarts

/-- Result of Miner::OnMinedExternal for one delivered solution. -/
inductive BlockFoundResult where
  | ok : BlockFoundResult
  | rejected : BlockFoundResult
deriving DecidableEq

/-- Modelled from the spec: Node::Miner::OnMinedExternal (declared node.h line
727, body in node.cpp, not under src/).  The delivered solution names a job
id; it is processed only when the backlog task for that id exists and its stop
flag is clear, otherwise the solution is discarded and nothing changes. -/
def onMinedExternal (s : MinerExternal) (solJobID : Nat) :
    BlockFoundResult × MinerExternal :=
  match get_At s solJobID with
  | none => (BlockFoundResult.rejected, s)
  | some j =>
    if j.m_Stop then (BlockFoundResult.rejected, s) else (BlockFoundResult.ok, s)

/-- Length is preserved by a slot write. -/
theorem slotSet_length (l : List (Option ExtJob)) (i : Nat) (v : Option ExtJob) :
    (slotSet l i v).length = l.length := by
  induction l generalizing i with
  | nil => rfl
  | cons x t ih =>
    cases i with
    | zero => rfl
    | succ i2 => simpa [slotSet] using ih i2

/-- Reading a freshly written slot returns the written value. -/
theorem slotGet_slotSet_eq (l : List (Option ExtJob)) (i : Nat)
    (v : Option ExtJob) (h : i < l.length) : slotGet (slotSet l i v) i = v := by
  induction l generalizing i with
  | nil => simp at h
  | cons x t ih =>
    cases i with
    | zero => rfl
    | succ i2 =>
      simp only [slotSet, slotGet]
      exact ih i2 (by simpa using h)

/-- Reading a different slot is unaffected by a write. -/
theorem slotGet_slotSet_ne (l : List (Option ExtJob)) (i j : Nat)
    (v : Option ExtJob) (h : i ≠ j) : slotGet (slotSet l i v) j = slotGet l j := by
  induction l generalizing i j with
  | nil => cases i <;> rfl
  | cons x t ih =>
    cases i with
    | zero =>
      cases j with
      | zero => exact absurd rfl h
      | succ j2 => rfl
    | succ i2 =>
      cases j with
      | zero => rfl
      | succ j2 => exact ih i2 j2 (fun hc => h (by omega))

/-- Reading past the end of the backlog gives nothing. -/
theorem slotGet_none_of_le (l : List (Option ExtJob)) (i : Nat)
    (h : l.length ≤ i) : slotGet l i = none := by
  induction l generalizing i with
  | nil => cases i <;> rfl
  | cons x t ih =>
    cases i with
    | zero => simp at h
    | succ i2 => exact ih i2 (by simpa using h)

/-- An all-empty backlog reads as empty everywhere. -/
theorem slotGet_replicate_none (n i : Nat) :
    slotGet (List.replicate n (none : Option ExtJob)) i = none := by
  induction n generalizing i with
  | zero => cases i <;> rfl
  | succ n2 ih =>
    cases i with
    | zero => rfl
    | succ i2 => simpa [List.replicate] using ih i2

/-- Invariant of the external miner: the backlog has 64 slots, every backlog
entry sits in the slot of its own job id, and every job other than the current
one carries a set stop flag. -/
def ExtInv (s : MinerExternal) : Prop :=
  s.m_ppTask.length = 64 ∧
  ∀ i jb, slotGet s.m_ppTask i = some jb →
    jb.m_JobID % 64 = i ∧ (jb.m_JobID ≠ s.m_jobID → jb.m_Stop = true)

/-- Stopping a job does not change the backlog size. -/
theorem stopJob_length (l : List (Option ExtJob)) (jobID : Nat) :
    (stopJob l jobID).length = l.length := by
  unfold stopJob
  cases h : slotGet l (jobID % 64) with
  | none => rfl
  | some j =>
    by_cases hid : j.m_JobID = jobID
    · simp [hid, slotSet_length]
    · simp [hid]

/-- The initial external miner state satisfies the invariant. -/
theorem extInv_init : ExtInv extInit := by
  refine ⟨by simp [extInit], ?_⟩
  intro i jb h
  simp only [extInit] at h
  rw [slotGet_replicate_none] at h
  exact absurd h (by simp)

/-- One template restart preserves the external miner invariant. -/
theorem extInv_step (s : MinerExternal) (h : ExtInv s) : ExtInv (minerStep s) := by
  obtain ⟨hlen, hinv⟩ := h
  have hlenStopped : (stopJob s.m_ppTask s.m_jobID).length = 64 := by
    rw [stopJob_length, hlen]
  refine ⟨by simp [minerStep, slotSet_length, hlenStopped], ?_⟩
  intro i jb hget
  by_cases hnew : i = (s.m_jobID + 1) % 64
  · have hv : slotGet (minerStep s).m_ppTask i
        = some { m_JobID := s.m_jobID + 1, m_Stop := false } := by
      simp only [minerStep]
      rw [hnew]
      exact slotGet_slotSet_eq _ _ _
        (by rw [hlenStopped]; exact Nat.mod_lt _ (by norm_num))
    rw [hv] at hget
    injection hget with hjb
    refine ⟨by rw [← hjb, hnew], ?_⟩
    intro hc
    refine absurd ?_ hc
    rw [← hjb]
    simp [minerStep]
  · have hgs : slotGet (minerStep s).m_ppTask i
        = slotGet (stopJob s.m_ppTask s.m_jobID) i := by
      simp only [minerStep]
      exact slotGet_slotSet_ne _ _ _ _ (fun hc => hnew hc.symm)
    rw [hgs] at hget
    by_cases hcur : i = s.m_jobID % 64
    · cases hsg : slotGet s.m_ppTask (s.m_jobID % 64) with
      | none =>
        have hid : stopJob s.m_ppTask s.m_jobID = s.m_ppTask := by
          simp [stopJob, hsg]
        rw [hid, hcur, hsg] at hget
        exact absurd hget (by simp)
      | some jb0 =>
        by_cases hid : jb0.m_JobID = s.m_jobID
        · have hst : stopJob s.m_ppTask s.m_jobID
              = slotSet s.m_ppTask (s.m_jobID % 64) (some { jb0 with m_Stop := true }) := by
            simp [stopJob, hsg, hid]
          rw [hst, hcur] at hget
          rw [slotGet_slotSet_eq _ _ _
            (by rw [hlen]; exact Nat.mod_lt _ (by norm_num))] at hget
          injection hget with hjb
          refine ⟨?_, fun _ => by rw [← hjb]⟩
          rw [← hjb]
          simpa [hid] using hcur.symm
        · have hst : stopJob s.m_ppTask s.m_jobID = s.m_ppTask := by
            simp [stopJob, hsg, hid]
          rw [hst, hcur, hsg] at hget
          injection hget with hjb
          obtain ⟨h1, h2⟩ := hinv (s.m_jobID % 64) jb0 hsg
          refine ⟨by rw [← hjb, h1, hcur], fun _ => by rw [← hjb]; exact h2 hid⟩
    · have hst : slotGet (stopJob s.m_ppTask s.m_jobID) i = slotGet s.m_ppTask i := by
        unfold stopJob
        cases hsg : slotGet s.m_ppTask (s.m_jobID % 64) with
        | none => rfl
        | some jb0 =>
          by_cases hid : jb0.m_JobID = s.m_jobID
          · simp only [hid, if_pos]
            exact slotGet_slotSet_ne _ _ _ _ (fun hc => hcur hc.symm)
          · simp [hid]
      rw [hst] at hget
      obtain ⟨h1, h2⟩ := hinv i jb hget
      refine ⟨h1, fun _ => ?_⟩
      refine h2 (fun hc => hcur ?_)
      rw [← h1, hc]

/-- The external miner invariant holds after any number of restarts. -/
theorem extInv_run (n : Nat) : ExtInv (minerRun n) := by
  induction n with
  | zero => exact extInv_init
  | succ n2 ih => exact extInv_step _ ih

/-- Under the invariant, the backlog task of a non-current job id, when it
exists at all, carries a set stop flag. -/
theorem get_At_stale (s : MinerExternal) (hinv : ExtInv s) (j : Nat)
    (h : j ≠ s.m_jobID) :
    get_At s j = none ∨ ∃ t, get_At s j = some t ∧ t.m_Stop = true := by
  unfold get_At
  cases hsg : slotGet s.m_ppTask (j % 64) with
  | none => exact Or.inl rfl
  | some j2 =>
    by_cases hid : j2.m_JobID = j
    · refine Or.inr ⟨j2, by simp [hid], ?_⟩
      exact (hinv.2 _ _ hsg).2 (by rw [hid]; exact h)
    · exact Or.inl (by simp [hid])

/-- C9: a solution delivered by the external solver whose job id differs from
the current mining job id is discarded: the result is rejected and the miner
state is unchanged, after any number of template restarts. -/
theorem minedExternal_stale_discarded (restarts solJobID : Nat)
    (h : solJobID ≠ (minerRun restarts).m_jobID) :
    onMinedExternal (minerRun restarts) solJobID
      = (BlockFoundResult.rejected, minerRun restarts) := by
  rcases get_At_stale (minerRun restarts) (extInv_run restarts) solJobID h with
    hga | ⟨t, hga, hstop⟩
  · simp [onMinedExternal, hga]
  · simp [onMinedExternal, hga, hstop]

/-- C9 witness: after two restarts the current job id is 2; a solution for the
stale job id 1 is rejected and the state is unchanged. -/
theorem minedExternal_stale_discarded_witness :
    onMinedExternal (minerRun 2) 1 = (BlockFoundResult.rejected, minerRun 2) := by
  exact minedExternal_stale_discarded 2 1 (by decide)

/-! ## C6: chocking and drown backpressure -/

/-- Bandwidth-relevant state of one peer session: whether the connection is
alive, the Chocking flag of Peer::Flags, and the outbound queue (the byte
sizes of the queued messages, oldest first). -/
structure BWState where
  m_Connected : Bool
  m_Chocking : Bool
  m_Queue : List Nat
deriving DecidableEq

/-- A freshly accepted peer: connected, not chocking, empty outbound queue. -/
def bwInit : BWState :=
  { m_Connected := true, m_Chocking := false, m_Queue := [] }

/-- Events affecting the outbound queue of a peer: a task assignment queueing
a response of a given size, any other outbound message, and the wire draining
the head of the queue. -/
inductive BWEvent where
  | assignTask : Nat → BWEvent
  | sendMsg : Nat → BWEvent
  | drain : BWEvent
deriving DecidableEq

/-- Modelled from the spec: queueing bytes to a peer
(Node::Peer::IsChocking and OnChocking are declared in node.h lines 560-565,
bodies in node.cpp, not under src/).  When the queued total exceeds the Drown
threshold the connection is aborted; otherwise the Chocking flag reflects
whether the total exceeds the Chocking threshold. -/
def bwEnqueue (cfg : BandwidthCtl) (s : BWState) (n : Nat) : BWState :=
  if cfg.m_Drown < (s.m_Queue ++ [n]).sum then
    { m_Connected := false, m_Chocking := s.m_Chocking, m_Queue := s.m_Queue ++ [n] }
  else
    { m_Connected := true
      m_Chocking := decide (cfg.m_Chocking < (s.m_Queue ++ [n]).sum)
      m_Queue := s.m_Queue ++ [n] }

/-- Modelled from the spec: one step of the peer bandwidth state machine.  A
task is assigned (and its bytes queued) only when the peer is connected and
not chocking; other outbound messages are queued regardless of the flag; when
the queue drains below the Chocking threshold the flag clears. -/
def bwStep (cfg : BandwidthCtl) (s : BWState) : BWEvent → BWState
  | BWEvent.assignTask n =>
    if s.m_Connected && !s.m_Chocking then bwEnqueue cfg s n else s
  | BWEvent.sendMsg n =>
    if s.m_Connected then bwEnqueue cfg s n else s
  | BWEvent.drain =>
    if s.m_Connected then
      match s.m_Queue with
      | [] => s
      | _ :: rest =>
        { m_Connected := true
          m_Chocking := decide (cfg.m_Chocking < rest.sum)
          m_Queue := rest }
    else s

/-- Run of the peer bandwidth state machine from a fresh connection. -/
def bwRun (cfg : BandwidthCtl) (evts : List BWEvent) : BWState :=
  evts.foldl (bwStep cfg) bwInit

/-- Invariant of the bandwidth state machine: while the peer stays connected,
the queued bytes never exceed the Drown threshold and the Chocking flag holds
exactly when the queued bytes exceed the Chocking threshold. -/
def BWInv (cfg : BandwidthCtl) (s : BWState) : Prop :=
  s.m_Connected = true →
    s.m_Queue.sum ≤ cfg.m_Drown ∧
    s.m_Chocking = decide (cfg.m_Chocking < s.m_Queue.sum)

/-- One step preserves the bandwidth invariant. -/
theorem bwInv_step (cfg : BandwidthCtl) (s : BWState) (e : BWEvent)
    (h : BWInv cfg s) : BWInv cfg (bwStep cfg s e) := by
  cases e with
  | assignTask n =>
    by_cases hc : s.m_Connected && !s.m_Chocking
    · simp only [bwStep, if_pos hc]
      unfold BWInv bwEnqueue
      by_cases hd : cfg.m_Drown < (s.m_Queue ++ [n]).sum
      · rw [if_pos hd]
        intro hcon
        exact Bool.noConfusion hcon
      · rw [if_neg hd]
        intro _
        exact ⟨not_lt.mp hd, rfl⟩
    · simpa only [bwStep, if_neg hc] using h
  | sendMsg n =>
    by_cases hc : s.m_Connected
    · simp only [bwStep, if_pos hc]
      unfold BWInv bwEnqueue
      by_cases hd : cfg.m_Drown < (s.m_Queue ++ [n]).sum
      · rw [if_pos hd]
        intro hcon
        exact Bool.noConfusion hcon
      · rw [if_neg hd]
        intro _
        exact ⟨not_lt.mp hd, rfl⟩
    · simpa only [bwStep, if_neg hc] using h
  | drain =>
    by_cases hc : s.m_Connected
    · simp only [bwStep, if_pos hc]
      cases hq : s.m_Queue with
      | nil => simpa using h
      | cons x rest =>
        intro _
        obtain ⟨h1, _⟩ := h hc
        refine ⟨?_, rfl⟩
        show rest.sum ≤ cfg.m_Drown
        rw [hq] at h1
        simp only [List.sum_cons] at h1
        omega
    · simpa only [bwStep, if_neg hc] using h

/-- The bandwidth invariant holds in every reachable state. -/
theorem bwInv_run (cfg : BandwidthCtl) (evts : List BWEvent) :
    BWInv cfg (bwRun cfg evts) := by
  suffices hgen : ∀ s, BWInv cfg s → BWInv cfg (evts.foldl (bwStep cfg) s) by
    refine hgen bwInit ?_
    intro _
    exact ⟨by simp [bwInit], by simp [bwInit]⟩
  induction evts with
  | nil => exact fun s hs => hs
  | cons e t ih => exact fun s hs => ih _ (bwInv_step cfg s e hs)

/-- C6: in every reachable state of a still-connected peer, the queued bytes
are at most the Drown threshold; the peer carries the Chocking flag exactly
when the queued bytes exceed the Chocking threshold; and a task assignment is
a no-op exactly while the flag is set, otherwise it queues the task bytes. -/
theorem bandwidth_ctl_invariant (cfg : BandwidthCtl) (evts : List BWEvent)
    (n : Nat) (h : (bwRun cfg evts).m_Connected = true) :
    (bwRun cfg evts).m_Queue.sum ≤ cfg.m_Drown ∧
    ((bwRun cfg evts).m_Chocking = true ↔
      cfg.m_Chocking < (bwRun cfg evts).m_Queue.sum) ∧
    bwStep cfg (bwRun cfg evts) (BWEvent.assignTask n)
      = (if (bwRun cfg evts).m_Chocking = true then bwRun cfg evts
         else bwEnqueue cfg (bwRun cfg evts) n) := by
  obtain ⟨h1, h2⟩ := bwInv_run cfg evts h
  refine ⟨h1, by rw [h2]; simp, ?_⟩
  by_cases hch : (bwRun cfg evts).m_Chocking = true
  · simp [bwStep, h, hch]
  · simp only [Bool.not_eq_true] at hch
    simp [bwStep, h, hch]

/-- Concrete small thresholds used to exercise the bandwidth machine:
Chocking at 5 bytes, Drown at 10 bytes. -/
def bwTestCfg : BandwidthCtl :=
  { m_Chocking := 5, m_Drown := 10, m_MaxBodyPackSize := 0, m_MaxBodyPackCount := 0 }

/-- C6 witness: with thresholds Chocking = 5 and Drown = 10, sending 6 bytes
leaves the peer connected and chocking; the invariant instantiated there. -/
theorem bandwidth_ctl_invariant_witness :
    (bwRun bwTestCfg [BWEvent.sendMsg 6]).m_Queue.sum ≤ bwTestCfg.m_Drown ∧
    ((bwRun bwTestCfg [BWEvent.sendMsg 6]).m_Chocking = true ↔
      bwTestCfg.m_Chocking < (bwRun bwTestCfg [BWEvent.sendMsg 6]).m_Queue.sum) ∧
    bwStep bwTestCfg (bwRun bwTestCfg [BWEvent.sendMsg 6]) (BWEvent.assignTask 2)
      = (if (bwRun bwTestCfg [BWEvent.sendMsg 6]).m_Chocking = true
         then bwRun bwTestCfg [BWEvent.sendMsg 6]
         else bwEnqueue bwTestCfg (bwRun bwTestCfg [BWEvent.sendMsg 6]) 2) := by
  exact bandwidth_ctl_invariant bwTestCfg [BWEvent.sendMsg 6] 2 (by decide)

/-! ## C2: every task is unassigned or bound to exactly one peer -/

/-- Queues of all connected peers, flattened in peer order. -/
def queuesOf : List (Nat × List TaskKey) → List TaskKey
  | [] => []
  | (_, l) :: t => l ++ queuesOf t

/-- Task registry state of the node: the unassigned list
m_lstTasksUnassigned, the per-peer task queues (Peer::m_lstTasks of every
connected peer, keyed by a peer id), and the task set m_setTasks
(node.h lines 281-306 and 535). -/
structure TaskReg where
  m_lstTasksUnassigned : List TaskKey
  m_Peers : List (Nat × List TaskKey)
  m_setTasks : List TaskKey
deriving DecidableEq

/-- Operations of the task registry, from the spec: request creates a task,
a free peer is assigned an unassigned task, completion deletes the task,
timeout returns it to unassigned, a disconnecting peer returns its whole
queue to unassigned in order, and a task whose target block is no longer
needed is deleted from the unassigned list. -/
inductive TaskOp where
  | request : TaskKey → TaskOp
  | connectPeer : Nat → TaskOp
  | assign : TaskKey → Nat → TaskOp
  | complete : TaskKey → Nat → TaskOp
  | timeoutTask : TaskKey → Nat → TaskOp
  | disconnectPeer : Nat → TaskOp
  | deleteUnassigned : TaskKey → TaskOp
deriving DecidableEq

/-- Queue of the peer with a given id (empty when not connected). -/
def peersQueue : List (Nat × List TaskKey) → Nat → List TaskKey
  | [], _ => []
  | (q, l) :: t, p => if q = p then l else peersQueue t p

/-- Whether a peer with the given id is connected. -/
def peersHas : List (Nat × List TaskKey) → Nat → Bool
  | [], _ => false
  | (q, _) :: t, p => if q = p then true else peersHas t p

/-- Pointwise update of the queue of one peer. -/
def peersUpdate : List (Nat × List TaskKey) → Nat →
    (List TaskKey → List TaskKey) → List (Nat × List TaskKey)
  | [], _, _ => []
  | (q, l) :: t, p, f => if q = p then (q, f l) :: t else (q, l) :: peersUpdate t p f

/-- Removal of one peer session. -/
def peersRemove : List (Nat × List TaskKey) → Nat → List (Nat × List TaskKey)
  | [], _ => []
  | (q, l) :: t, p => if q = p then t else (q, l) :: peersRemove t p

/-- Modelled from the spec: the task transfer code (Node::TryAssignTask,
Peer::TakeTasks, Peer::ReleaseTasks, Peer::ReleaseTask,
Node::DeleteUnassignedTask, declared in node.h, bodies in node.cpp, not under
src/) moves every task between the unassigned list and exactly one peer
queue; ownership is exclusive and transferred atomically. -/
def trStep (s : TaskReg) : TaskOp → TaskReg
  | TaskOp.request k =>
    if k ∈ s.m_setTasks then s
    else
      { s with m_setTasks := k :: s.m_setTasks
               m_lstTasksUnassigned := k :: s.m_lstTasksUnassigned }
  | TaskOp.connectPeer p =>
    if peersHas s.m_Peers p then s
    else { s with m_Peers := (p, []) :: s.m_Peers }
  | TaskOp.assign k p =>
    if k ∈ s.m_lstTasksUnassigned ∧ peersHas s.m_Peers p = true then
      { s with m_lstTasksUnassigned := s.m_lstTasksUnassigned.erase k
               m_Peers := peersUpdate s.m_Peers p (fun l => k :: l) }
    else s
  | TaskOp.complete k p =>
    if k ∈ peersQueue s.m_Peers p then
      { s with m_Peers := peersUpdate s.m_Peers p (fun l => l.erase k)
               m_setTasks := s.m_setTasks.erase k }
    else s
  | TaskOp.timeoutTask k p =>
    if k ∈ peersQueue s.m_Peers p then
      { s with m_Peers := peersUpdate s.m_Peers p (fun l => l.erase k)
               m_lstTasksUnassigned := k :: s.m_lstTasksUnassigned }
    else s
  | TaskOp.disconnectPeer p =>
    { s with m_lstTasksUnassigned := s.m_lstTasksUnassigned ++ peersQueue s.m_Peers p
             m_Peers := peersRemove s.m_Peers p }
  | TaskOp.deleteUnassigned k =>
    if k ∈ s.m_lstTasksUnassigned then
      { s with m_lstTasksUnassigned := s.m_lstTasksUnassigned.erase k
               m_setTasks := s.m_setTasks.erase k }
    else s

/-- The empty task registry at node start. -/
def trInit : TaskReg :=
  { m_lstTasksUnassigned := [], m_Peers := [], m_setTasks := [] }

/-- Run of the task registry over an operation sequence. -/
def trRun (ops : List TaskOp) : TaskReg :=
  ops.foldl trStep trInit

/-- Prepending a key to the queue of a connected peer prepends it to the
flattened queues, up to permutation. -/
theorem queuesOf_update_cons (ps : List (Nat × List TaskKey)) (p : Nat)
    (k : TaskKey) (h : peersHas ps p = true) :
    (queuesOf (peersUpdate ps p (fun l => k :: l))).Perm (k :: queuesOf ps) := by
  induction ps with
  | nil => exact absurd h (by simp [peersHas])
  | cons hd t ih =>
    obtain ⟨q, l⟩ := hd
    by_cases hq : q = p
    · simp only [peersUpdate, if_pos hq, queuesOf]
      exact List.Perm.refl _
    · simp only [peersUpdate, if_neg hq, queuesOf]
      have h2 : peersHas t p = true := by
        simpa [peersHas, hq] using h
      exact ((ih h2).append_left l).trans List.perm_middle

/-- Erasing a key present in the queue of one peer removes exactly one copy
from the flattened queues, up to permutation. -/
theorem queuesOf_update_erase (ps : List (Nat × List TaskKey)) (p : Nat)
    (k : TaskKey) (h : k ∈ peersQueue ps p) :
    (k :: queuesOf (peersUpdate ps p (fun l => l.erase k))).Perm (queuesOf ps) := by
  induction ps with
  | nil => exact absurd h (by simp [peersQueue])
  | cons hd t ih =>
    obtain ⟨q, l⟩ := hd
    by_cases hq : q = p
    · have hkl : k ∈ l := by simpa [peersQueue, hq] using h
      simp only [peersUpdate, if_pos hq, queuesOf]
      exact (List.perm_cons_erase hkl).symm.append_right (queuesOf t)
    · have h2 : k ∈ peersQueue t p := by simpa [peersQueue, hq] using h
      simp only [peersUpdate, if_neg hq, queuesOf]
      exact List.perm_middle.symm.trans ((ih h2).append_left l)

/-- Removing one peer splits the flattened queues into that peer queue and
the rest, up to permutation. -/
theorem queuesOf_remove (ps : List (Nat × List TaskKey)) (p : Nat) :
    (queuesOf ps).Perm (peersQueue ps p ++ queuesOf (peersRemove ps p)) := by
  induction ps with
  | nil => exact List.Perm.refl _
  | cons hd t ih =>
    obtain ⟨q, l⟩ := hd
    by_cases hq : q = p
    · simp only [queuesOf, peersQueue, peersRemove, if_pos hq]
      exact List.Perm.refl _
    · simp only [queuesOf, peersQueue, peersRemove, if_neg hq]
      exact (ih.append_left l).trans (List.perm_append_comm_assoc _ _ _)

/-- A key in the queue of some peer is in the flattened queues. -/
theorem mem_queuesOf_of_mem_peersQueue (ps : List (Nat × List TaskKey))
    (p : Nat) (k : TaskKey) (h : k ∈ peersQueue ps p) : k ∈ queuesOf ps := by
  induction ps with
  | nil => exact absurd h (by simp [peersQueue])
  | cons hd t ih =>
    obtain ⟨q, l⟩ := hd
    by_cases hq : q = p
    · have : k ∈ l := by simpa [peersQueue, hq] using h
      simp [queuesOf, this]
    · have : k ∈ peersQueue t p := by simpa [peersQueue, hq] using h
      simp [queuesOf, ih this]

/-- Invariant of the task registry: the unassigned list and the flattened
peer queues together are a permutation of the task set, and the task set has
no duplicate keys. -/
def TRInv (s : TaskReg) : Prop :=
  (s.m_lstTasksUnassigned ++ queuesOf s.m_Peers).Perm s.m_setTasks ∧
  s.m_setTasks.Nodup

/-- Every task-registry operation preserves the partition invariant. -/
theorem trInv_step (s : TaskReg) (op : TaskOp) (h : TRInv s) :
    TRInv (trStep s op) := by
  obtain ⟨hperm, hnd⟩ := h
  cases op with
  | request k =>
    by_cases hk : k ∈ s.m_setTasks
    · simpa only [trStep, if_pos hk] using ⟨hperm, hnd⟩
    · simp only [trStep, if_neg hk]
      exact ⟨hperm.cons k, List.nodup_cons.mpr ⟨hk, hnd⟩⟩
  | connectPeer p =>
    by_cases hp : peersHas s.m_Peers p = true
    · simpa only [trStep, if_pos hp] using ⟨hperm, hnd⟩
    · simp only [trStep, if_neg hp]
      exact ⟨hperm, hnd⟩
  | assign k p =>
    by_cases hg : k ∈ s.m_lstTasksUnassigned ∧ peersHas s.m_Peers p = true
    · obtain ⟨hku, hp⟩ := hg
      simp only [trStep, if_pos (And.intro hku hp)]
      refine ⟨?_, hnd⟩
      have h2 : (s.m_lstTasksUnassigned.erase k ++
          queuesOf (peersUpdate s.m_Peers p (fun l => k :: l))).Perm
          (s.m_lstTasksUnassigned.erase k ++ (k :: queuesOf s.m_Peers)) :=
        (queuesOf_update_cons s.m_Peers p k hp).append_left _
      have h3 : (s.m_lstTasksUnassigned.erase k ++
          (k :: queuesOf s.m_Peers)).Perm
          (k :: (s.m_lstTasksUnassigned.erase k ++ queuesOf s.m_Peers)) :=
        List.perm_middle
      have h5 : ((k :: s.m_lstTasksUnassigned.erase k) ++ queuesOf s.m_Peers).Perm
          (s.m_lstTasksUnassigned ++ queuesOf s.m_Peers) :=
        (List.perm_cons_erase hku).symm.append_right _
      exact h2.trans (h3.trans (h5.trans hperm))
    · simp only [trStep, if_neg hg]
      exact ⟨hperm, hnd⟩
  | complete k p =>
    by_cases hkq : k ∈ peersQueue s.m_Peers p
    · simp only [trStep, if_pos hkq]
      have hkset : k ∈ s.m_setTasks :=
        hperm.mem_iff.mp
          (List.mem_append.mpr (Or.inr (mem_queuesOf_of_mem_peersQueue _ _ _ hkq)))
      refine ⟨?_, hnd.erase k⟩
      have hstep : (k :: (s.m_lstTasksUnassigned ++
          queuesOf (peersUpdate s.m_Peers p (fun l => l.erase k)))).Perm
          (k :: s.m_setTasks.erase k) := by
        have ha : (k :: (s.m_lstTasksUnassigned ++
            queuesOf (peersUpdate s.m_Peers p (fun l => l.erase k)))).Perm
            (s.m_lstTasksUnassigned ++
              (k :: queuesOf (peersUpdate s.m_Peers p (fun l => l.erase k)))) :=
          List.perm_middle.symm
        have hc : (s.m_lstTasksUnassigned ++
            (k :: queuesOf (peersUpdate s.m_Peers p (fun l => l.erase k)))).Perm
            (s.m_lstTasksUnassigned ++ queuesOf s.m_Peers) :=
          (queuesOf_update_erase s.m_Peers p k hkq).append_left _
        exact ha.trans (hc.trans (hperm.trans (List.perm_cons_erase hkset)))
      exact hstep.cons_inv
    · simp only [trStep, if_neg hkq]
      exact ⟨hperm, hnd⟩
  | timeoutTask k p =>
    by_cases hkq : k ∈ peersQueue s.m_Peers p
    · simp only [trStep, if_pos hkq]
      refine ⟨?_, hnd⟩
      have ha : ((k :: s.m_lstTasksUnassigned) ++
          queuesOf (peersUpdate s.m_Peers p (fun l => l.erase k))).Perm
          (s.m_lstTasksUnassigned ++
            (k :: queuesOf (peersUpdate s.m_Peers p (fun l => l.erase k)))) :=
        List.perm_middle.symm
      have hc : (s.m_lstTasksUnassigned ++
          (k :: queuesOf (peersUpdate s.m_Peers p (fun l => l.erase k)))).Perm
          (s.m_lstTasksUnassigned ++ queuesOf s.m_Peers) :=
        (queuesOf_update_erase s.m_Peers p k hkq).append_left _
      exact ha.trans (hc.trans hperm)
    · simp only [trStep, if_neg hkq]
      exact ⟨hperm, hnd⟩
  | disconnectPeer p =>
    simp only [trStep]
    refine ⟨?_, hnd⟩
    rw [List.append_assoc]
    exact ((queuesOf_remove s.m_Peers p).symm.append_left _).trans hperm
  | deleteUnassigned k =>
    by_cases hku : k ∈ s.m_lstTasksUnassigned
    · simp only [trStep, if_pos hku]
      have hkset : k ∈ s.m_setTasks :=
        hperm.mem_iff.mp (List.mem_append.mpr (Or.inl hku))
      refine ⟨?_, hnd.erase k⟩
      have hstep : (k :: (s.m_lstTasksUnassigned.erase k ++ queuesOf s.m_Peers)).Perm
          (k :: s.m_setTasks.erase k) := by
        have h5 : ((k :: s.m_lstTasksUnassigned.erase k) ++ queuesOf s.m_Peers).Perm
            (s.m_lstTasksUnassigned ++ queuesOf s.m_Peers) :=
          (List.perm_cons_erase hku).symm.append_right _
        exact h5.trans (hperm.trans (List.perm_cons_erase hkset))
      exact hstep.cons_inv
    · simp only [trStep, if_neg hku]
      exact ⟨hperm, hnd⟩

/-- The partition invariant holds in every reachable task-registry state. -/
theorem trInv_run (ops : List TaskOp) : TRInv (trRun ops) := by
  suffices hgen : ∀ s, TRInv s → TRInv (ops.foldl trStep s) by
    refine hgen trInit ⟨?_, ?_⟩
    · simp only [trInit, queuesOf]
      exact List.Perm.refl _
    · simp [trInit]
  induction ops with
  | nil => exact fun s hs => hs
  | cons o t ih => exact fun s hs => ih _ (trInv_step s o hs)

/-- C2: in every reachable state of the node, the unassigned list and the
peer task queues together form a permutation of the task set m_setTasks, and
every task of the set occurs exactly once across the unassigned list and all
peer queues: it is either unassigned or bound to exactly one peer, never
both and never two peers. -/
theorem task_partition (ops : List TaskOp) (k : TaskKey)
    (hk : k ∈ (trRun ops).m_setTasks) :
    ((trRun ops).m_lstTasksUnassigned ++ queuesOf (trRun ops).m_Peers).Perm
      (trRun ops).m_setTasks ∧
    ((trRun ops).m_lstTasksUnassigned ++ queuesOf (trRun ops).m_Peers).count k
      = 1 := by
  obtain ⟨hperm, hnd⟩ := trInv_run ops
  refine ⟨hperm, ?_⟩
  rw [hperm.count_eq]
  exact List.count_eq_one_of_mem hnd hk

/-- Concrete operation sequence: two tasks requested, one assigned to the
single connected peer. -/
def taskOpsSample : List TaskOp :=
  [TaskOp.request (TaskKey.mk 1 1 false), TaskOp.connectPeer 1,
   TaskOp.assign (TaskKey.mk 1 1 false) 1, TaskOp.request (TaskKey.mk 2 2 true)]

/-- C2 witness: the partition invariant evaluated after the sample operation
sequence, at the task that ended up on the connected peer. -/
theorem task_partition_witness :
    ((trRun taskOpsSample).m_lstTasksUnassigned ++
      queuesOf (trRun taskOpsSample).m_Peers).Perm (trRun taskOpsSample).m_setTasks ∧
    ((trRun taskOpsSample).m_lstTasksUnassigned ++
      queuesOf (trRun taskOpsSample).m_Peers).count (TaskKey.mk 1 1 false) = 1 := by
  exact task_partition taskOpsSample (TaskKey.mk 1 1 false) (by decide)
